import Mathlib

set_option maxRecDepth 10000

/-!
Verification of the steno-keyboard firmware core (`keys.py`).

The Python source is shallowly embedded below.  Per-address buffers
(`readings`, `output`, `prev_output`) are 32-entry arrays in the source and
are modelled as functions `Nat → Nat`; the calibration arrays `zero`/`max`
hold JSON integers and are modelled as `Nat → Int`; key bitmaps
(`pressed`, `stroke`, `mask`) are plain naturals, exactly as in the source.
Python's `//` on the non-negative operands appearing here is `Nat.div`,
and a Python `ZeroDivisionError` is modelled by an `Option` failure.
-/

namespace Steno

/-- Gemini PR protocol layout table (`__protocol`, keys.py lines 67-72):
six rows of seven sensor addresses, one per data bit of the packet. -/
def protocol : List (List Nat) :=
  [[28, 2, 2, 2, 2, 2, 2],
   [0, 1, 3, 4, 6, 7, 9],
   [10, 8, 11, 12, 13, 28, 28],
   [28, 12, 13, 14, 17, 15, 16],
   [18, 19, 20, 21, 23, 24, 26],
   [2, 2, 2, 2, 2, 2, 27]]

/-- Entry `i` of row `c` of the protocol table. -/
def protoEntry (c i : Nat) : Nat := (protocol.getD c []).getD i 0

/-- Names of the keys by sensor address (`__key_names`, keys.py line 36). -/
def keyNames : List String :=
  ["S1", "S2", "#", "T", "K", "-", "P", "W", "A", "H", "R", "O", "*1", "*2",
   "E", "F", "-R", "-U", "-P", "-B", "-L", "-G", "--", "-T", "-S", "#2", "-D", "-Z"]

/-- Bitmap of the sensor addresses actually wired (`self.mask`, keys.py line 119). -/
def maskValue : Nat := 0b1101101111111111111111011111

/-- State of the `Keys` object: the buffers and calibration attributes set up
in `Keys.__init__` (hardware pin handles are omitted). -/
structure Keys where
  readings : Nat → Nat
  output : Nat → Nat
  prev_output : Nat → Nat
  pressed : Nat
  prev_pressed : Nat
  stroke : Nat
  zero : Nat → Int
  max : Nat → Int
  thresh_h : Nat → Nat
  thresh_l : Nat → Nat
  mask : Nat

/-- The `Keys()` constructor (keys.py lines 82-121).  `cal` is the content of
the calibration file, `none` when the file is absent (the `except OSError`
branch, which installs the hardcoded defaults). -/
def Keys.init (cal : Option ((Nat → Int) × (Nat → Int))) : Keys :=
  { readings := fun _ => 0
    output := fun _ => 0
    prev_output := fun _ => 0
    pressed := 0
    prev_pressed := 0
    stroke := 0
    zero := match cal with
      | some c => c.1
      | none => fun _ => 32913
    max := match cal with
      | some c => c.2
      | none => fun _ => 51227
    thresh_h := fun _ => 128
    thresh_l := fun _ => 100
    mask := maskValue }

/-- Normalization of one raw reading (keys.py lines 161-162):
`val = abs(val-zero[addr])*255//abs(max[addr]-zero[addr])` followed by
`min(255, max(0, val))`.  Both operands of `//` are non-negative, so the
Python floor division is `Nat.div`. -/
def normVal (r : Nat) (z m : Int) : Nat :=
  min 255 (max 0 (((r : Int) - z).natAbs * 255 / (m - z).natAbs))

/-- One hysteresis decision for a single address (keys.py lines 165-168),
operating on the boolean pressed state of that address. -/
def hystB (thH thL : Nat) (pr : Bool) (v : Nat) : Bool :=
  if v > thH ∧ pr = false then true
  else if v < thL ∧ pr = true then false
  else pr

/-- The in-place hysteresis update of the pressed bitmap (keys.py lines
165-168): set bit `addr` with `|=`, clear it with `-= 1<<addr`. -/
def pressedUpdate (thH thL : Nat) (pr : Nat) (addr v : Nat) : Nat :=
  if v > thH ∧ (pr >>> addr) &&& 1 = 0 then pr ||| (1 <<< addr)
  else if v < thL ∧ (pr >>> addr) &&& 1 = 1 then pr - (1 <<< addr)
  else pr

/-- The mutable scan buffers threaded through the polling loop of
`Keys.read` (after the `output`/`prev_output` swap). -/
structure ScanBuf where
  readings : Nat → Nat
  output : Nat → Nat
  pressed : Nat
  changed : Bool

/-- Body of the polling loop of `Keys.read` (keys.py lines 156-168) for
multiplexer channel `i` and analog input `j`; `prevOut` is
`self.prev_output` after the swap (the output vector of the previous scan),
`adc i j` the 16-bit value `self.ADC[j].value` while channel `i` is
selected.  The unguarded division of line 161 raises `ZeroDivisionError`
when `abs(max[addr]-zero[addr]) == 0`; that exception is modelled by
`none`. -/
def readBody (zero mx : Nat → Int) (thH thL : Nat → Nat) (mask : Nat)
    (prevOut : Nat → Nat) (adc : Nat → Nat → Nat) (s : ScanBuf) (i j : Nat) :
    Option ScanBuf :=
  let addr := i + j * 8
  if (mask >>> addr) &&& 1 = 1 then
    let val := adc i j
    if (mx addr - zero addr).natAbs = 0 then none
    else
      let v := normVal val (zero addr) (mx addr)
      some { readings := fun a => if a = addr then val else s.readings a
             output := fun a => if a = addr then v else s.output a
             pressed := pressedUpdate (thH addr) (thL addr) s.pressed addr v
             changed := s.changed || decide (v ≠ prevOut addr) }
  else some s

/-- `Keys.read` (keys.py lines 147-169): swap the output buffers, remember
the previous pressed bitmap, poll the 8 multiplexer channels and 4 analog
inputs, and return whether the pressed bitmap changed (the value of the
final `return self.pressed != self.prev_pressed`). -/
def Keys.read (k : Keys) (adc : Nat → Nat → Nat) : Option (Keys × Bool) :=
  match (List.range 8).foldlM
      (fun s i => (List.range 4).foldlM
        (fun s j => readBody k.zero k.max k.thresh_h k.thresh_l k.mask k.output adc s i j) s)
      (⟨k.readings, k.prev_output, k.pressed, false⟩ : ScanBuf) with
  | none => none
  | some buf =>
      some ({ k with
                readings := buf.readings
                output := buf.output
                prev_output := k.output
                pressed := buf.pressed
                prev_pressed := k.pressed },
            decide (buf.pressed ≠ k.pressed))

/-- Byte `c` of the Gemini PR packet assembled by `Keys.write` (keys.py
lines 174-178): for each entry `j` at position `i` of protocol row `c`, add
`((stroke >> j) & 1) << (6-i)`; byte 0 is then OR-ed with `0x80`. -/
def packetByte (stroke : Nat) (c : Nat) : Nat :=
  let raw := ((protocol.getD c []).enum).foldl
    (fun b p => b + ((stroke >>> p.2) &&& 1) <<< (6 - p.1)) 0
  if c = 0 then raw ||| 0x80 else raw

/-- The 6-byte buffer written to the serial port by `Keys.write`
(keys.py lines 171-179). -/
def writePacket (stroke : Nat) : List Nat :=
  (List.range 6).map (packetByte stroke)

/-- One iteration of the main loop of `Keys.loop` (keys.py lines 254-263),
with the calibration branch not taken: read the keyboard; on a pressed
change either emit the stroke with `Keys.write` and reset it (all keys
released), or OR the pressed bitmap into the stroke.  Returns the new state
and the packet written, if any. -/
def loopStep (k : Keys) (adc : Nat → Nat → Nat) : Option (Keys × Option (List Nat)) :=
  match k.read adc with
  | none => none
  | some (k1, changed) =>
      if changed then
        if k1.pressed = 0 then
          some ({ k1 with stroke := 0 }, some (writePacket k1.stroke))
        else
          some ({ k1 with stroke := k1.stroke ||| k1.pressed }, none)
      else some (k1, none)

/-- Run the main loop for one `adc` snapshot per iteration, collecting the
emitted packets. -/
def loopRun (k : Keys) : List (Nat → Nat → Nat) → Option (Keys × List (List Nat))
  | [] => some (k, [])
  | adc :: rest =>
      match loopStep k adc with
      | none => none
      | some (k1, e) =>
          match loopRun k1 rest with
          | none => none
          | some (k2, es) => some (k2, e.toList ++ es)

/-- The pressed bitmap observed after each successive iteration of the main
loop. -/
def loopTrace (k : Keys) : List (Nat → Nat → Nat) → Option (List Nat)
  | [] => some []
  | adc :: rest =>
      match loopStep k adc with
      | none => none
      | some (k1, _) =>
          match loopTrace k1 rest with
          | none => none
          | some ps => some (k1.pressed :: ps)

/-- Validate-and-commit phase of `Keys.calibrate` (keys.py lines 212-231),
starting from the jitter extremes `vMin0`/`vMax0` of phase 1 and the
most-distant readings `vPressed` of phase 2: pick the resting reference by
polarity, collect the names of masked keys failing the
`abs(vPressed[i] - zero[i]) < 0` check, and either report the errors and
return (calibration discarded) or adopt `(zero, vPressed)` as the new
calibration.  Returns the new state, the error list and whether the
calibration was committed. -/
def calibCommit (k : Keys) (vMin0 vMax0 vPressed : Nat → Nat) :
    Keys × List String × Bool :=
  let zero : Nat → Nat := fun i => if vPressed i < vMin0 i then vMin0 i else vMax0 i
  let err : List String := (List.range 32).foldl
    (fun e i =>
      if k.mask &&& (1 <<< i) ≠ 0 ∧ ((vPressed i : Int) - (zero i : Int)).natAbs < 0 then
        e ++ [keyNames.getD i ""]
      else e) []
  if err.length ≠ 0 then (k, err, false)
  else ({ k with max := fun i => (vPressed i : Int), zero := fun i => (zero i : Int) },
        err, true)

/-- States of the `Keys` object reachable from startup through the
operations of the firmware: construction (including the factory-reset path,
which re-runs `__init__`), scans (`Keys.read`, also invoked from inside
`Keys.calibrate`), main-loop iterations, and calibration commits. -/
inductive Reachable : Keys → Prop where
  | boot : ∀ cal, Reachable (Keys.init cal)
  | scan : ∀ k adc k' ret, Reachable k → k.read adc = some (k', ret) → Reachable k'
  | main : ∀ k adc k' e, Reachable k → loopStep k adc = some (k', e) → Reachable k'
  | cal : ∀ k vMin0 vMax0 vPressed, Reachable k →
      Reachable (calibCommit k vMin0 vMax0 vPressed).1

/-! ### Bitmap lemmas -/

theorem sr_and_one (p a : Nat) : (p >>> a) &&& 1 = p / 2 ^ a % 2 := by
  rw [Nat.and_one_is_mod, Nat.shiftRight_eq_div_pow]

theorem testBit_iff_one {p a : Nat} : p.testBit a = true ↔ (p >>> a) &&& 1 = 1 := by
  simp [Nat.testBit_to_div_mod, Nat.and_one_is_mod, Nat.shiftRight_eq_div_pow]

theorem testBit_iff_zero {p a : Nat} : p.testBit a = false ↔ (p >>> a) &&& 1 = 0 := by
  simp only [Nat.testBit_to_div_mod, sr_and_one, decide_eq_false_iff_not]
  omega

theorem testBit_one_shiftLeft (b a : Nat) : (1 <<< b).testBit a = decide (b = a) := by
  rw [Nat.one_shiftLeft]
  exact Nat.testBit_two_pow

theorem testBit_sub_pow {p b : Nat} (h : p.testBit b = true) (a : Nat) :
    (p - 1 <<< b).testBit a = (p.testBit a && !decide (a = b)) := by
  rw [Nat.one_shiftLeft]
  have hpos : 0 < 2 ^ b := Nat.two_pow_pos b
  have hsucc : 2 ^ (b + 1) = 2 * 2 ^ b := by rw [Nat.pow_succ, Nat.mul_comm]
  obtain ⟨hi, rem, hp, hremlt⟩ :
      ∃ hi rem, p = 2 ^ (b + 1) * hi + rem ∧ rem < 2 ^ (b + 1) :=
    ⟨p / 2 ^ (b + 1), p % 2 ^ (b + 1), (Nat.div_add_mod p (2 ^ (b + 1))).symm,
      Nat.mod_lt _ (Nat.two_pow_pos _)⟩
  have hrb : rem.testBit b = true := by
    rw [hp, Nat.testBit_mul_pow_two_add hi hremlt b, if_pos (Nat.lt_succ_self b)] at h
    exact h
  have hd2 : rem / 2 ^ b % 2 = 1 := by
    simpa [Nat.testBit_to_div_mod] using hrb
  have hdiv_lt : rem / 2 ^ b < 2 := by
    rw [Nat.div_lt_iff_lt_mul hpos]
    omega
  have h1 : rem / 2 ^ b = 1 := by
    generalize hg : rem / 2 ^ b = t at hd2 hdiv_lt
    omega
  have hlodm := Nat.div_add_mod rem (2 ^ b)
  rw [h1, Nat.mul_one] at hlodm
  have hlo_lt : rem % 2 ^ b < 2 ^ b := Nat.mod_lt _ hpos
  have hlo_lt' : rem % 2 ^ b < 2 ^ (b + 1) := by omega
  have hp2 : p = 2 ^ (b + 1) * hi + (2 ^ b + rem % 2 ^ b) := by
    rw [hp, hlodm]
  have hsub : p - 2 ^ b = 2 ^ (b + 1) * hi + rem % 2 ^ b := by
    have hre : 2 ^ (b + 1) * hi + (2 ^ b + rem % 2 ^ b) =
        (2 ^ (b + 1) * hi + rem % 2 ^ b) + 2 ^ b := by ring
    rw [hp2, hre, Nat.add_sub_cancel]
  have hpa : p.testBit a =
      if a < b + 1 then (2 ^ b + rem % 2 ^ b).testBit a else hi.testBit (a - (b + 1)) := by
    conv_lhs => rw [hp2]
    exact Nat.testBit_mul_pow_two_add hi (by omega) a
  rw [hsub, Nat.testBit_mul_pow_two_add hi hlo_lt' a, hpa]
  by_cases hab : a < b + 1
  · rw [if_pos hab, if_pos hab]
    by_cases haeb : a = b
    · subst haeb
      have hlob : (rem % 2 ^ a).testBit a = false := Nat.testBit_lt_two_pow hlo_lt
      simp [hlob]
    · have halt : a < b := by omega
      have h2 : (2 ^ b + rem % 2 ^ b).testBit a = (rem % 2 ^ b).testBit a := by
        have h3 := @Nat.testBit_mul_pow_two_add 1 (rem % 2 ^ b) b hlo_lt a
        rw [Nat.mul_one] at h3
        rw [h3, if_pos halt]
      rw [h2]
      simp [haeb]
  · rw [if_neg hab, if_neg hab]
    have hne : ¬ a = b := by omega
    simp [hne]

theorem pressedUpdate_testBit_other (thH thL pr addr v a : Nat) (hne : a ≠ addr) :
    (pressedUpdate thH thL pr addr v).testBit a = pr.testBit a := by
  unfold pressedUpdate
  have hne' : addr ≠ a := fun h => hne h.symm
  split
  · rw [Nat.testBit_or, testBit_one_shiftLeft]
    simp [hne']
  · split
    · rename_i h2
      have hb : pr.testBit addr = true := testBit_iff_one.mpr h2.2
      rw [testBit_sub_pow hb a]
      simp [hne]
    · rfl

theorem pressedUpdate_testBit_self (thH thL pr addr v : Nat) :
    (pressedUpdate thH thL pr addr v).testBit addr = hystB thH thL (pr.testBit addr) v := by
  unfold pressedUpdate hystB
  by_cases hb : pr.testBit addr
  · have h1 : (pr >>> addr) &&& 1 = 1 := testBit_iff_one.mp hb
    rw [hb]
    have hc1 : ¬ (v > thH ∧ (pr >>> addr) &&& 1 = 0) := by
      rintro ⟨_, h0⟩; omega
    have hc1' : ¬ (v > thH ∧ (true : Bool) = false) := by
      rintro ⟨_, h0⟩; exact Bool.true_eq_false_eq_False h0
    rw [if_neg hc1, if_neg hc1']
    by_cases hv : v < thL
    · rw [if_pos ⟨hv, h1⟩, if_pos ⟨hv, rfl⟩]
      rw [testBit_sub_pow hb addr]
      simp
    · have hc2 : ¬ (v < thL ∧ (pr >>> addr) &&& 1 = 1) := by rintro ⟨h0, _⟩; exact hv h0
      have hc2' : ¬ (v < thL ∧ (true : Bool) = true) := by rintro ⟨h0, _⟩; exact hv h0
      rw [if_neg hc2, if_neg hc2', hb]
  · have hb0 : pr.testBit addr = false := Bool.eq_false_iff.mpr hb
    have h0 : (pr >>> addr) &&& 1 = 0 := testBit_iff_zero.mp hb0
    rw [hb0]
    by_cases hv : v > thH
    · rw [if_pos ⟨hv, h0⟩, if_pos ⟨hv, rfl⟩]
      rw [Nat.testBit_or, testBit_one_shiftLeft]
      simp
    · have hc1 : ¬ (v > thH ∧ (pr >>> addr) &&& 1 = 0) := by rintro ⟨h2, _⟩; exact hv h2
      have hc1' : ¬ (v > thH ∧ (false : Bool) = false) := by rintro ⟨h2, _⟩; exact hv h2
      rw [if_neg hc1, if_neg hc1']
      have hc2 : ¬ (v < thL ∧ (pr >>> addr) &&& 1 = 1) := by
        rintro ⟨_, h2⟩; omega
      have hc2' : ¬ (v < thL ∧ (false : Bool) = true) := by
        rintro ⟨_, h2⟩; exact Bool.false_ne_true h2
      rw [if_neg hc2, if_neg hc2', hb0]

/-! ### Characterization of the polling loop of `Keys.read` -/

/-- Sensor address of a (multiplexer channel, analog input) pair, as computed
by `addr=i+j*8` (keys.py line 156). -/
def addrOf (p : Nat × Nat) : Nat := p.1 + p.2 * 8

/-- The 32 (channel, input) pairs visited by the two nested loops of
`Keys.read`, in visiting order. -/
def allPairs : List (Nat × Nat) :=
  [(0, 0), (0, 1), (0, 2), (0, 3), (1, 0), (1, 1), (1, 2), (1, 3),
   (2, 0), (2, 1), (2, 2), (2, 3), (3, 0), (3, 1), (3, 2), (3, 3),
   (4, 0), (4, 1), (4, 2), (4, 3), (5, 0), (5, 1), (5, 2), (5, 3),
   (6, 0), (6, 1), (6, 2), (6, 3), (7, 0), (7, 1), (7, 2), (7, 3)]

/-- Folding the scan body over an explicit list of (channel, input) pairs. -/
def scanFold (zero mx : Nat → Int) (thH thL : Nat → Nat) (mask : Nat)
    (prevOut : Nat → Nat) (adc : Nat → Nat → Nat) (ps : List (Nat × Nat))
    (s : ScanBuf) : Option ScanBuf :=
  ps.foldlM (fun s p => readBody zero mx thH thL mask prevOut adc s p.1 p.2) s

theorem nestedFold_eq (f : ScanBuf → Nat → Nat → Option ScanBuf) (s : ScanBuf) :
    (List.range 8).foldlM (fun s i => (List.range 4).foldlM (fun s j => f s i j) s) s =
      allPairs.foldlM (fun s p => f s p.1 p.2) s := by
  have h8 : List.range 8 = [0, 1, 2, 3, 4, 5, 6, 7] := by decide
  have h4 : List.range 4 = [0, 1, 2, 3] := by decide
  simp only [h8, h4, allPairs, List.foldlM_cons, List.foldlM_nil, bind_assoc, bind_pure,
    pure_bind]

theorem scanFold_char (zero mx : Nat → Int) (thH thL : Nat → Nat) (mask : Nat)
    (prevOut : Nat → Nat) (adc : Nat → Nat → Nat) (ps : List (Nat × Nat)) :
    (ps.map addrOf).Nodup →
    ∀ s s' : ScanBuf,
      scanFold zero mx thH thL mask prevOut adc ps s = some s' →
      ((∀ a, (∀ p ∈ ps, addrOf p ≠ a) →
          s'.readings a = s.readings a ∧ s'.output a = s.output a ∧
          s'.pressed.testBit a = s.pressed.testBit a) ∧
       (∀ p ∈ ps,
         if (mask >>> addrOf p) &&& 1 = 1 then
           (mx (addrOf p) - zero (addrOf p)).natAbs ≠ 0 ∧
           s'.readings (addrOf p) = adc p.1 p.2 ∧
           s'.output (addrOf p) = normVal (adc p.1 p.2) (zero (addrOf p)) (mx (addrOf p)) ∧
           s'.pressed.testBit (addrOf p) =
             hystB (thH (addrOf p)) (thL (addrOf p)) (s.pressed.testBit (addrOf p))
               (normVal (adc p.1 p.2) (zero (addrOf p)) (mx (addrOf p)))
         else
           s'.readings (addrOf p) = s.readings (addrOf p) ∧
           s'.output (addrOf p) = s.output (addrOf p) ∧
           s'.pressed.testBit (addrOf p) = s.pressed.testBit (addrOf p))) := by
  induction ps with
  | nil =>
      intro _ s s' h
      have hss : s = s' := by
        simpa [scanFold] using h
      subst hss
      exact ⟨fun a _ => ⟨rfl, rfl, rfl⟩, by simp⟩
  | cons p rest ih =>
      intro hnd s s' h
      rw [List.map_cons, List.nodup_cons] at hnd
      obtain ⟨hnotin, hnd'⟩ := hnd
      have hne_head : ∀ q ∈ rest, addrOf q ≠ addrOf p := by
        intro q hq hqe
        exact hnotin (hqe ▸ List.mem_map_of_mem addrOf hq)
      rw [scanFold, List.foldlM_cons] at h
      cases hbody : readBody zero mx thH thL mask prevOut adc s p.1 p.2 with
      | none =>
          rw [hbody] at h
          simp at h
      | some s1 =>
          rw [hbody] at h
          have h' : scanFold zero mx thH thL mask prevOut adc rest s1 = some s' := h
          obtain ⟨IH1, IH2⟩ := ih hnd' s1 s' h'
          simp only [readBody] at hbody
          simp only [addrOf] at IH1 IH2 hne_head ⊢
          by_cases hm : (mask >>> (p.1 + p.2 * 8)) &&& 1 = 1
          · rw [if_pos hm] at hbody
            by_cases hz : (mx (p.1 + p.2 * 8) - zero (p.1 + p.2 * 8)).natAbs = 0
            · rw [if_pos hz] at hbody
              exact absurd hbody (by simp)
            · rw [if_neg hz] at hbody
              have hs1 := Option.some.inj hbody
              subst hs1
              constructor
              · intro a ha
                have hpa : p.1 + p.2 * 8 ≠ a := ha p (List.mem_cons_self p rest)
                have harest : ∀ q ∈ rest, q.1 + q.2 * 8 ≠ a := fun q hq =>
                  ha q (List.mem_cons_of_mem p hq)
                obtain ⟨e1, e2, e3⟩ := IH1 a harest
                refine ⟨?_, ?_, ?_⟩
                · rw [e1]
                  exact if_neg fun hh => hpa hh.symm
                · rw [e2]
                  exact if_neg fun hh => hpa hh.symm
                · rw [e3]
                  exact pressedUpdate_testBit_other _ _ _ _ _ _ fun hh => hpa hh.symm
              · intro q hq
                rcases List.mem_cons.mp hq with rfl | hq'
                · rw [if_pos hm]
                  obtain ⟨e1, e2, e3⟩ := IH1 (q.1 + q.2 * 8) hne_head
                  refine ⟨hz, ?_, ?_, ?_⟩
                  · rw [e1]
                    exact if_pos rfl
                  · rw [e2]
                    exact if_pos rfl
                  · rw [e3]
                    exact pressedUpdate_testBit_self _ _ _ _ _
                · have hqp : q.1 + q.2 * 8 ≠ p.1 + p.2 * 8 := hne_head q hq'
                  have IH2q := IH2 q hq'
                  by_cases hmq : (mask >>> (q.1 + q.2 * 8)) &&& 1 = 1
                  · rw [if_pos hmq] at IH2q ⊢
                    obtain ⟨z1, r1, o1, pb1⟩ := IH2q
                    refine ⟨z1, r1, o1, ?_⟩
                    rw [pb1]
                    congr 1
                    exact pressedUpdate_testBit_other _ _ _ _ _ _ hqp
                  · rw [if_neg hmq] at IH2q ⊢
                    obtain ⟨r1, o1, pb1⟩ := IH2q
                    refine ⟨?_, ?_, ?_⟩
                    · rw [r1]
                      exact if_neg hqp
                    · rw [o1]
                      exact if_neg hqp
                    · rw [pb1]
                      exact pressedUpdate_testBit_other _ _ _ _ _ _ hqp
          · rw [if_neg hm] at hbody
            have hs1 := Option.some.inj hbody
            subst hs1
            constructor
            · intro a ha
              exact IH1 a fun q hq => ha q (List.mem_cons_of_mem p hq)
            · intro q hq
              rcases List.mem_cons.mp hq with rfl | hq'
              · rw [if_neg hm]
                exact IH1 (q.1 + q.2 * 8) hne_head
              · exact IH2 q hq'

theorem allPairs_nodup : (allPairs.map addrOf).Nodup := by decide

theorem allPairs_mem : ∀ a, a < 32 → (a % 8, a / 8) ∈ allPairs := by decide

theorem allPairs_bound : ∀ p ∈ allPairs, addrOf p < 32 := by decide

theorem nestedFold_eq_scanFold (zero mx : Nat → Int) (thH thL : Nat → Nat) (mask : Nat)
    (prevOut : Nat → Nat) (adc : Nat → Nat → Nat) (s : ScanBuf) :
    (List.range 8).foldlM
      (fun s i => (List.range 4).foldlM
        (fun s j => readBody zero mx thH thL mask prevOut adc s i j) s) s =
      scanFold zero mx thH thL mask prevOut adc allPairs s :=
  (nestedFold_eq (fun s i j => readBody zero mx thH thL mask prevOut adc s i j) s).trans rfl

theorem read_eq (k : Keys) (adc : Nat → Nat → Nat) :
    k.read adc =
      match scanFold k.zero k.max k.thresh_h k.thresh_l k.mask k.output adc allPairs
          ⟨k.readings, k.prev_output, k.pressed, false⟩ with
      | none => none
      | some buf =>
          some ({ k with
                    readings := buf.readings
                    output := buf.output
                    prev_output := k.output
                    pressed := buf.pressed
                    prev_pressed := k.pressed },
                decide (buf.pressed ≠ k.pressed)) := by
  unfold Keys.read
  rw [nestedFold_eq_scanFold]

/-- Functional characterization of one call of `Keys.read`: the return flag,
the bookkeeping fields, and the per-address effect on the buffers and the
pressed bitmap. -/
theorem read_char (k : Keys) (adc : Nat → Nat → Nat) (k' : Keys) (ret : Bool)
    (h : k.read adc = some (k', ret)) :
    ret = decide (k'.pressed ≠ k.pressed) ∧
    k'.prev_pressed = k.pressed ∧
    k'.prev_output = k.output ∧
    k'.stroke = k.stroke ∧ k'.zero = k.zero ∧ k'.max = k.max ∧
    k'.thresh_h = k.thresh_h ∧ k'.thresh_l = k.thresh_l ∧ k'.mask = k.mask ∧
    (∀ a, 32 ≤ a →
      k'.readings a = k.readings a ∧ k'.output a = k.prev_output a ∧
      k'.pressed.testBit a = k.pressed.testBit a) ∧
    (∀ a, a < 32 →
      if (k.mask >>> a) &&& 1 = 1 then
        (k.max a - k.zero a).natAbs ≠ 0 ∧
        k'.readings a = adc (a % 8) (a / 8) ∧
        k'.output a = normVal (adc (a % 8) (a / 8)) (k.zero a) (k.max a) ∧
        k'.pressed.testBit a =
          hystB (k.thresh_h a) (k.thresh_l a) (k.pressed.testBit a)
            (normVal (adc (a % 8) (a / 8)) (k.zero a) (k.max a))
      else
        k'.readings a = k.readings a ∧ k'.output a = k.prev_output a ∧
        k'.pressed.testBit a = k.pressed.testBit a) := by
  rw [read_eq] at h
  cases hS : scanFold k.zero k.max k.thresh_h k.thresh_l k.mask k.output adc allPairs
      ⟨k.readings, k.prev_output, k.pressed, false⟩ with
  | none =>
      rw [hS] at h
      exact Option.noConfusion h
  | some buf =>
      rw [hS] at h
      have h2 : ({ k with
                    readings := buf.readings
                    output := buf.output
                    prev_output := k.output
                    pressed := buf.pressed
                    prev_pressed := k.pressed },
          decide (buf.pressed ≠ k.pressed)) = (k', ret) := Option.some.inj h
      have hk' : k' = { k with
                          readings := buf.readings
                          output := buf.output
                          prev_output := k.output
                          pressed := buf.pressed
                          prev_pressed := k.pressed } :=
        (congrArg Prod.fst h2).symm
      have hret : ret = decide (buf.pressed ≠ k.pressed) := (congrArg Prod.snd h2).symm
      obtain ⟨HA, HB⟩ := scanFold_char k.zero k.max k.thresh_h k.thresh_l k.mask k.output adc
        allPairs allPairs_nodup _ buf hS
      subst hk'
      refine ⟨hret, rfl, rfl, rfl, rfl, rfl, rfl, rfl, rfl, ?_, ?_⟩
      · intro a ha
        exact HA a fun p hp hpe => absurd (hpe ▸ allPairs_bound p hp) (by omega)
      · intro a ha
        have HBa := HB (a % 8, a / 8) (allPairs_mem a ha)
        have haddr : addrOf (a % 8, a / 8) = a := by
          show a % 8 + a / 8 * 8 = a
          omega
        rw [haddr] at HBa
        exact HBa

/-! ### Bit layout of the Gemini packet -/

theorem testBit_eq_decide (p a : Nat) : p.testBit a = decide ((p >>> a) &&& 1 = 1) := by
  by_cases h : p.testBit a
  · rw [h, eq_comm, decide_eq_true_eq]
    exact testBit_iff_one.mp h
  · have h' : p.testBit a = false := Bool.eq_false_iff.mpr h
    rw [h', eq_comm, decide_eq_false_iff_not]
    intro hc
    exact h (testBit_iff_one.mpr hc)

theorem packetByte0 (stroke : Nat) : packetByte stroke 0 =
    (0 + ((stroke >>> 28) &&& 1) <<< 6 + ((stroke >>> 2) &&& 1) <<< 5 +
     ((stroke >>> 2) &&& 1) <<< 4 + ((stroke >>> 2) &&& 1) <<< 3 +
     ((stroke >>> 2) &&& 1) <<< 2 + ((stroke >>> 2) &&& 1) <<< 1 +
     ((stroke >>> 2) &&& 1) <<< 0) ||| 0x80 := rfl

theorem packetByte1 (stroke : Nat) : packetByte stroke 1 =
    0 + ((stroke >>> 0) &&& 1) <<< 6 + ((stroke >>> 1) &&& 1) <<< 5 +
    ((stroke >>> 3) &&& 1) <<< 4 + ((stroke >>> 4) &&& 1) <<< 3 +
    ((stroke >>> 6) &&& 1) <<< 2 + ((stroke >>> 7) &&& 1) <<< 1 +
    ((stroke >>> 9) &&& 1) <<< 0 := rfl

theorem packetByte2 (stroke : Nat) : packetByte stroke 2 =
    0 + ((stroke >>> 10) &&& 1) <<< 6 + ((stroke >>> 8) &&& 1) <<< 5 +
    ((stroke >>> 11) &&& 1) <<< 4 + ((stroke >>> 12) &&& 1) <<< 3 +
    ((stroke >>> 13) &&& 1) <<< 2 + ((stroke >>> 28) &&& 1) <<< 1 +
    ((stroke >>> 28) &&& 1) <<< 0 := rfl

theorem packetByte3 (stroke : Nat) : packetByte stroke 3 =
    0 + ((stroke >>> 28) &&& 1) <<< 6 + ((stroke >>> 12) &&& 1) <<< 5 +
    ((stroke >>> 13) &&& 1) <<< 4 + ((stroke >>> 14) &&& 1) <<< 3 +
    ((stroke >>> 17) &&& 1) <<< 2 + ((stroke >>> 15) &&& 1) <<< 1 +
    ((stroke >>> 16) &&& 1) <<< 0 := rfl

theorem packetByte4 (stroke : Nat) : packetByte stroke 4 =
    0 + ((stroke >>> 18) &&& 1) <<< 6 + ((stroke >>> 19) &&& 1) <<< 5 +
    ((stroke >>> 20) &&& 1) <<< 4 + ((stroke >>> 21) &&& 1) <<< 3 +
    ((stroke >>> 23) &&& 1) <<< 2 + ((stroke >>> 24) &&& 1) <<< 1 +
    ((stroke >>> 26) &&& 1) <<< 0 := rfl

theorem packetByte5 (stroke : Nat) : packetByte stroke 5 =
    0 + ((stroke >>> 2) &&& 1) <<< 6 + ((stroke >>> 2) &&& 1) <<< 5 +
    ((stroke >>> 2) &&& 1) <<< 4 + ((stroke >>> 2) &&& 1) <<< 3 +
    ((stroke >>> 2) &&& 1) <<< 2 + ((stroke >>> 2) &&& 1) <<< 1 +
    ((stroke >>> 27) &&& 1) <<< 0 := rfl

theorem sumBits (x0 x1 x2 x3 x4 x5 x6 : Nat)
    (h0 : x0 ≤ 1) (h1 : x1 ≤ 1) (h2 : x2 ≤ 1) (h3 : x3 ≤ 1)
    (h4 : x4 ≤ 1) (h5 : x5 ≤ 1) (h6 : x6 ≤ 1) :
    (0 + x0 <<< 6 + x1 <<< 5 + x2 <<< 4 + x3 <<< 3 + x4 <<< 2 + x5 <<< 1 + x6 <<< 0) < 128 ∧
    (0 + x0 <<< 6 + x1 <<< 5 + x2 <<< 4 + x3 <<< 3 + x4 <<< 2 + x5 <<< 1 + x6 <<< 0).testBit 0
      = decide (x6 = 1) ∧
    (0 + x0 <<< 6 + x1 <<< 5 + x2 <<< 4 + x3 <<< 3 + x4 <<< 2 + x5 <<< 1 + x6 <<< 0).testBit 1
      = decide (x5 = 1) ∧
    (0 + x0 <<< 6 + x1 <<< 5 + x2 <<< 4 + x3 <<< 3 + x4 <<< 2 + x5 <<< 1 + x6 <<< 0).testBit 2
      = decide (x4 = 1) ∧
    (0 + x0 <<< 6 + x1 <<< 5 + x2 <<< 4 + x3 <<< 3 + x4 <<< 2 + x5 <<< 1 + x6 <<< 0).testBit 3
      = decide (x3 = 1) ∧
    (0 + x0 <<< 6 + x1 <<< 5 + x2 <<< 4 + x3 <<< 3 + x4 <<< 2 + x5 <<< 1 + x6 <<< 0).testBit 4
      = decide (x2 = 1) ∧
    (0 + x0 <<< 6 + x1 <<< 5 + x2 <<< 4 + x3 <<< 3 + x4 <<< 2 + x5 <<< 1 + x6 <<< 0).testBit 5
      = decide (x1 = 1) ∧
    (0 + x0 <<< 6 + x1 <<< 5 + x2 <<< 4 + x3 <<< 3 + x4 <<< 2 + x5 <<< 1 + x6 <<< 0).testBit 6
      = decide (x0 = 1) := by
  have hs : 0 + x0 <<< 6 + x1 <<< 5 + x2 <<< 4 + x3 <<< 3 + x4 <<< 2 + x5 <<< 1 + x6 <<< 0
      = 64 * x0 + 32 * x1 + 16 * x2 + 8 * x3 + 4 * x4 + 2 * x5 + x6 := by
    simp only [Nat.shiftLeft_eq]
    norm_num
    ring
  rw [hs]
  have c0 : (2 : Nat) ^ 0 = 1 := by norm_num
  have c1 : (2 : Nat) ^ 1 = 2 := by norm_num
  have c2 : (2 : Nat) ^ 2 = 4 := by norm_num
  have c3 : (2 : Nat) ^ 3 = 8 := by norm_num
  have c4 : (2 : Nat) ^ 4 = 16 := by norm_num
  have c5 : (2 : Nat) ^ 5 = 32 := by norm_num
  have c6 : (2 : Nat) ^ 6 = 64 := by norm_num
  refine ⟨by omega, ?_, ?_, ?_, ?_, ?_, ?_, ?_⟩ <;>
    · simp only [Nat.testBit_to_div_mod, decide_eq_decide, c0, c1, c2, c3, c4, c5, c6]
      omega

theorem and_one_le (x : Nat) : x &&& 1 ≤ 1 :=
  Nat.and_le_right

/-- Data bit `b` (0–6) of byte `c` of the packet is exactly the stroke bit of
the table entry at row `c`, position `6 - b`. -/
theorem packetByte_testBit (stroke : Nat) (c b : Nat) (hc : c < 6) (hb : b < 7) :
    (packetByte stroke c).testBit b = stroke.testBit (protoEntry c (6 - b)) := by
  have h128 : ∀ bb, bb < 7 → (128 : Nat).testBit bb = false := by decide
  interval_cases c
  · obtain ⟨-, g0, g1, g2, g3, g4, g5, g6⟩ :=
      sumBits ((stroke >>> 28) &&& 1) ((stroke >>> 2) &&& 1) ((stroke >>> 2) &&& 1)
        ((stroke >>> 2) &&& 1) ((stroke >>> 2) &&& 1) ((stroke >>> 2) &&& 1)
        ((stroke >>> 2) &&& 1) (and_one_le _) (and_one_le _) (and_one_le _) (and_one_le _)
        (and_one_le _) (and_one_le _) (and_one_le _)
    rw [packetByte0]
    interval_cases b
    · rw [Nat.testBit_or, h128 0 (by norm_num), Bool.or_false, g0, testBit_eq_decide]; rfl
    · rw [Nat.testBit_or, h128 1 (by norm_num), Bool.or_false, g1, testBit_eq_decide]; rfl
    · rw [Nat.testBit_or, h128 2 (by norm_num), Bool.or_false, g2, testBit_eq_decide]; rfl
    · rw [Nat.testBit_or, h128 3 (by norm_num), Bool.or_false, g3, testBit_eq_decide]; rfl
    · rw [Nat.testBit_or, h128 4 (by norm_num), Bool.or_false, g4, testBit_eq_decide]; rfl
    · rw [Nat.testBit_or, h128 5 (by norm_num), Bool.or_false, g5, testBit_eq_decide]; rfl
    · rw [Nat.testBit_or, h128 6 (by norm_num), Bool.or_false, g6, testBit_eq_decide]; rfl
  · obtain ⟨-, g0, g1, g2, g3, g4, g5, g6⟩ :=
      sumBits ((stroke >>> 0) &&& 1) ((stroke >>> 1) &&& 1) ((stroke >>> 3) &&& 1)
        ((stroke >>> 4) &&& 1) ((stroke >>> 6) &&& 1) ((stroke >>> 7) &&& 1)
        ((stroke >>> 9) &&& 1) (and_one_le _) (and_one_le _) (and_one_le _) (and_one_le _)
        (and_one_le _) (and_one_le _) (and_one_le _)
    rw [packetByte1]
    interval_cases b
    · rw [g0, testBit_eq_decide]; rfl
    · rw [g1, testBit_eq_decide]; rfl
    · rw [g2, testBit_eq_decide]; rfl
    · rw [g3, testBit_eq_decide]; rfl
    · rw [g4, testBit_eq_decide]; rfl
    · rw [g5, testBit_eq_decide]; rfl
    · rw [g6, testBit_eq_decide]; rfl
  · obtain ⟨-, g0, g1, g2, g3, g4, g5, g6⟩ :=
      sumBits ((stroke >>> 10) &&& 1) ((stroke >>> 8) &&& 1) ((stroke >>> 11) &&& 1)
        ((stroke >>> 12) &&& 1) ((stroke >>> 13) &&& 1) ((stroke >>> 28) &&& 1)
        ((stroke >>> 28) &&& 1) (and_one_le _) (and_one_le _) (and_one_le _) (and_one_le _)
        (and_one_le _) (and_one_le _) (and_one_le _)
    rw [packetByte2]
    interval_cases b
    · rw [g0, testBit_eq_decide]; rfl
    · rw [g1, testBit_eq_decide]; rfl
    · rw [g2, testBit_eq_decide]; rfl
    · rw [g3, testBit_eq_decide]; rfl
    · rw [g4, testBit_eq_decide]; rfl
    · rw [g5, testBit_eq_decide]; rfl
    · rw [g6, testBit_eq_decide]; rfl
  · obtain ⟨-, g0, g1, g2, g3, g4, g5, g6⟩ :=
      sumBits ((stroke >>> 28) &&& 1) ((stroke >>> 12) &&& 1) ((stroke >>> 13) &&& 1)
        ((stroke >>> 14) &&& 1) ((stroke >>> 17) &&& 1) ((stroke >>> 15) &&& 1)
        ((stroke >>> 16) &&& 1) (and_one_le _) (and_one_le _) (and_one_le _) (and_one_le _)
        (and_one_le _) (and_one_le _) (and_one_le _)
    rw [packetByte3]
    interval_cases b
    · rw [g0, testBit_eq_decide]; rfl
    · rw [g1, testBit_eq_decide]; rfl
    · rw [g2, testBit_eq_decide]; rfl
    · rw [g3, testBit_eq_decide]; rfl
    · rw [g4, testBit_eq_decide]; rfl
    · rw [g5, testBit_eq_decide]; rfl
    · rw [g6, testBit_eq_decide]; rfl
  · obtain ⟨-, g0, g1, g2, g3, g4, g5, g6⟩ :=
      sumBits ((stroke >>> 18) &&& 1) ((stroke >>> 19) &&& 1) ((stroke >>> 20) &&& 1)
        ((stroke >>> 21) &&& 1) ((stroke >>> 23) &&& 1) ((stroke >>> 24) &&& 1)
        ((stroke >>> 26) &&& 1) (and_one_le _) (and_one_le _) (and_one_le _) (and_one_le _)
        (and_one_le _) (and_one_le _) (and_one_le _)
    rw [packetByte4]
    interval_cases b
    · rw [g0, testBit_eq_decide]; rfl
    · rw [g1, testBit_eq_decide]; rfl
    · rw [g2, testBit_eq_decide]; rfl
    · rw [g3, testBit_eq_decide]; rfl
    · rw [g4, testBit_eq_decide]; rfl
    · rw [g5, testBit_eq_decide]; rfl
    · rw [g6, testBit_eq_decide]; rfl
  · obtain ⟨-, g0, g1, g2, g3, g4, g5, g6⟩ :=
      sumBits ((stroke >>> 2) &&& 1) ((stroke >>> 2) &&& 1) ((stroke >>> 2) &&& 1)
        ((stroke >>> 2) &&& 1) ((stroke >>> 2) &&& 1) ((stroke >>> 2) &&& 1)
        ((stroke >>> 27) &&& 1) (and_one_le _) (and_one_le _) (and_one_le _) (and_one_le _)
        (and_one_le _) (and_one_le _) (and_one_le _)
    rw [packetByte5]
    interval_cases b
    · rw [g0, testBit_eq_decide]; rfl
    · rw [g1, testBit_eq_decide]; rfl
    · rw [g2, testBit_eq_decide]; rfl
    · rw [g3, testBit_eq_decide]; rfl
    · rw [g4, testBit_eq_decide]; rfl
    · rw [g5, testBit_eq_decide]; rfl
    · rw [g6, testBit_eq_decide]; rfl

/-- Bit 7 of byte `c` of the packet is set exactly for byte 0. -/
theorem packetByte_msb (stroke : Nat) (c : Nat) (hc : c < 6) :
    (packetByte stroke c).testBit 7 = decide (c = 0) := by
  have h27 : (2 : Nat) ^ 7 = 128 := by norm_num
  interval_cases c
  · rw [packetByte0, Nat.testBit_or]
    have hlt := (sumBits ((stroke >>> 28) &&& 1) ((stroke >>> 2) &&& 1) ((stroke >>> 2) &&& 1)
      ((stroke >>> 2) &&& 1) ((stroke >>> 2) &&& 1) ((stroke >>> 2) &&& 1)
      ((stroke >>> 2) &&& 1) (and_one_le _) (and_one_le _) (and_one_le _) (and_one_le _)
      (and_one_le _) (and_one_le _) (and_one_le _)).1
    rw [Nat.testBit_lt_two_pow (by omega)]
    rfl
  · rw [packetByte1]
    have hlt := (sumBits ((stroke >>> 0) &&& 1) ((stroke >>> 1) &&& 1) ((stroke >>> 3) &&& 1)
      ((stroke >>> 4) &&& 1) ((stroke >>> 6) &&& 1) ((stroke >>> 7) &&& 1)
      ((stroke >>> 9) &&& 1) (and_one_le _) (and_one_le _) (and_one_le _) (and_one_le _)
      (and_one_le _) (and_one_le _) (and_one_le _)).1
    exact Nat.testBit_lt_two_pow (by omega)
  · rw [packetByte2]
    have hlt := (sumBits ((stroke >>> 10) &&& 1) ((stroke >>> 8) &&& 1) ((stroke >>> 11) &&& 1)
      ((stroke >>> 12) &&& 1) ((stroke >>> 13) &&& 1) ((stroke >>> 28) &&& 1)
      ((stroke >>> 28) &&& 1) (and_one_le _) (and_one_le _) (and_one_le _) (and_one_le _)
      (and_one_le _) (and_one_le _) (and_one_le _)).1
    exact Nat.testBit_lt_two_pow (by omega)
  · rw [packetByte3]
    have hlt := (sumBits ((stroke >>> 28) &&& 1) ((stroke >>> 12) &&& 1) ((stroke >>> 13) &&& 1)
      ((stroke >>> 14) &&& 1) ((stroke >>> 17) &&& 1) ((stroke >>> 15) &&& 1)
      ((stroke >>> 16) &&& 1) (and_one_le _) (and_one_le _) (and_one_le _) (and_one_le _)
      (and_one_le _) (and_one_le _) (and_one_le _)).1
    exact Nat.testBit_lt_two_pow (by omega)
  · rw [packetByte4]
    have hlt := (sumBits ((stroke >>> 18) &&& 1) ((stroke >>> 19) &&& 1) ((stroke >>> 20) &&& 1)
      ((stroke >>> 21) &&& 1) ((stroke >>> 23) &&& 1) ((stroke >>> 24) &&& 1)
      ((stroke >>> 26) &&& 1) (and_one_le _) (and_one_le _) (and_one_le _) (and_one_le _)
      (and_one_le _) (and_one_le _) (and_one_le _)).1
    exact Nat.testBit_lt_two_pow (by omega)
  · rw [packetByte5]
    have hlt := (sumBits ((stroke >>> 2) &&& 1) ((stroke >>> 2) &&& 1) ((stroke >>> 2) &&& 1)
      ((stroke >>> 2) &&& 1) ((stroke >>> 2) &&& 1) ((stroke >>> 2) &&& 1)
      ((stroke >>> 27) &&& 1) (and_one_le _) (and_one_le _) (and_one_le _) (and_one_le _)
      (and_one_le _) (and_one_le _) (and_one_le _)).1
    exact Nat.testBit_lt_two_pow (by omega)

theorem writePacket_length (stroke : Nat) : (writePacket stroke).length = 6 := rfl

theorem writePacket_getD (stroke c : Nat) (hc : c < 6) :
    (writePacket stroke).getD c 0 = packetByte stroke c := by
  interval_cases c <;> rfl

/-! ### Concrete scan scenarios used by witnesses and counterexamples -/

/-- Initial device state: no calibration file, factory defaults. -/
def k0 : Keys := Keys.init none

/-- Every sensor at its default resting value. -/
def adcIdle : Nat → Nat → Nat := fun _ _ => 32913

/-- Every sensor at its default fully-pressed value. -/
def adcFull : Nat → Nat → Nat := fun _ _ => 51227

/-- Every sensor at a mid value: normalized output 42, below both thresholds. -/
def adcMid : Nat → Nat → Nat := fun _ _ => 36000

/-- Channel 0, analog input 1 reads 777; everything else reads 5. -/
def adcOne : Nat → Nat → Nat := fun i j => if i = 0 ∧ j = 1 then 777 else 5

/-- Result of the first scan of `adcFull` from the initial state. -/
def readFull : Keys × Bool := (k0.read adcFull).get (by decide)

/-- Result of the first scan of `adcOne` from the initial state. -/
def readOne : Keys × Bool := (k0.read adcOne).get (by decide)

/-- True when some masked address's normalized output differs from the
previous scan's. -/
def outputChangedB (k : Keys) : Bool :=
  (List.range 32).any fun a =>
    decide ((k.mask >>> a) &&& 1 = 1) && decide (k.output a ≠ k.prev_output a)

/-! ### Claims -/

/-- C1: for every masked address `addr` and every completed scan, given
calibration values with `max[addr] ≠ zero[addr]`, the normalized 8-bit
output computed by `Keys.read` equals
`clamp(|readings[addr] - zero[addr]| * 255 / |max[addr] - zero[addr]|, 0, 255)`
in integer arithmetic with truncating division, and this output is
monotonically non-decreasing in `|readings[addr] - zero[addr]|`. -/
theorem claim_C1 (k : Keys) (adc : Nat → Nat → Nat) (addr : Nat) (k' : Keys) (ret : Bool)
    (ha : addr < 32) (hm : (k.mask >>> addr) &&& 1 = 1)
    (hmz : k.max addr ≠ k.zero addr)
    (hr : k.read adc = some (k', ret)) :
    k'.output addr =
      min 255 (max 0 (((k'.readings addr : Int) - k.zero addr).natAbs * 255 /
        (k.max addr - k.zero addr).natAbs)) ∧
    (∀ r1 r2 : Nat,
      ((r1 : Int) - k.zero addr).natAbs ≤ ((r2 : Int) - k.zero addr).natAbs →
      normVal r1 (k.zero addr) (k.max addr) ≤ normVal r2 (k.zero addr) (k.max addr)) := by
  obtain ⟨-, -, -, -, -, -, -, -, -, -, HB⟩ := read_char k adc k' ret hr
  have H := HB addr ha
  rw [if_pos hm] at H
  obtain ⟨hz, hrd, hout, -⟩ := H
  constructor
  · rw [hout, hrd]
    rfl
  · intro r1 r2 hle
    unfold normVal
    have hdiv : ((r1 : Int) - k.zero addr).natAbs * 255 / (k.max addr - k.zero addr).natAbs ≤
        ((r2 : Int) - k.zero addr).natAbs * 255 / (k.max addr - k.zero addr).natAbs :=
      Nat.div_le_div_right (Nat.mul_le_mul_right 255 hle)
    simp only [Nat.zero_max]
    exact min_le_min (le_refl 255) hdiv

theorem claim_C1_witness :
    (0 : Nat) < 32 ∧ ((k0.mask >>> 0) &&& 1 = 1) ∧ k0.max 0 ≠ k0.zero 0 ∧
    (readFull.1.output 0 =
      min 255 (max 0 (((readFull.1.readings 0 : Int) - k0.zero 0).natAbs * 255 /
        (k0.max 0 - k0.zero 0).natAbs)) ∧
    (∀ r1 r2 : Nat,
      ((r1 : Int) - k0.zero 0).natAbs ≤ ((r2 : Int) - k0.zero 0).natAbs →
      normVal r1 (k0.zero 0) (k0.max 0) ≤ normVal r2 (k0.zero 0) (k0.max 0))) :=
  ⟨by decide, by decide, by decide,
    claim_C1 k0 adcFull 0 readFull.1 readFull.2 (by decide) (by decide) (by decide) rfl⟩

/-- C2: for every masked address, `Keys.read` applies hysteresis
independently: the new pressed bit is exactly the Schmitt-trigger decision
`hystB` on the new output; `hystB` makes no transition while the value stays
in the dead zone `[thresh_l, thresh_h]`; and for thresholds `(100, 128)` the
output sequence `[0, 150, 120, 90]` yields pressed states
`[false, true, true, false]`. -/
theorem claim_C2 (k : Keys) (adc : Nat → Nat → Nat) (addr : Nat) (k' : Keys) (ret : Bool)
    (ha : addr < 32) (hm : (k.mask >>> addr) &&& 1 = 1)
    (hr : k.read adc = some (k', ret)) :
    k'.pressed.testBit addr =
      hystB (k.thresh_h addr) (k.thresh_l addr) (k.pressed.testBit addr) (k'.output addr) ∧
    (∀ thH thL : Nat, ∀ pr : Bool, ∀ v : Nat,
      thL ≤ v → v ≤ thH → hystB thH thL pr v = pr) ∧
    (List.scanl (hystB 128 100) false [0, 150, 120, 90]).tail =
      [false, true, true, false] := by
  obtain ⟨-, -, -, -, -, -, -, -, -, -, HB⟩ := read_char k adc k' ret hr
  have H := HB addr ha
  rw [if_pos hm] at H
  obtain ⟨-, -, hout, hpb⟩ := H
  refine ⟨by rw [hpb, hout], ?_, by decide⟩
  intro thH thL pr v h1 h2
  unfold hystB
  have hc1 : ¬ (v > thH ∧ pr = false) := fun hx => absurd hx.1 (by omega)
  have hc2 : ¬ (v < thL ∧ pr = true) := fun hx => absurd hx.1 (by omega)
  rw [if_neg hc1, if_neg hc2]

theorem claim_C2_witness :
    (0 : Nat) < 32 ∧ ((k0.mask >>> 0) &&& 1 = 1) ∧
    (readFull.1.pressed.testBit 0 =
      hystB (k0.thresh_h 0) (k0.thresh_l 0) (k0.pressed.testBit 0) (readFull.1.output 0) ∧
    (∀ thH thL : Nat, ∀ pr : Bool, ∀ v : Nat,
      thL ≤ v → v ≤ thH → hystB thH thL pr v = pr) ∧
    (List.scanl (hystB 128 100) false [0, 150, 120, 90]).tail =
      [false, true, true, false]) :=
  ⟨by decide, by decide,
    claim_C2 k0 adcFull 0 readFull.1 readFull.2 (by decide) (by decide) rfl⟩

/-- C6 counterexample: scanning `adcOne` (channel 0, input 1 reads 777, all
other sensors read 5) from the initial state does not store 777 at address
`0 + 4*1 = 4` as the claim's formula `addr = channel + 4*input_index`
demands — address 4 holds 5 (it belongs to channel 4, input 0), while 777
lands at address `0 + 8*1 = 8`. -/
theorem claim_C6_counterexample :
    ((k0.read adcOne).map fun p => p.1.readings (0 + 1 * 4)) ≠ some 777 ∧
    ((k0.read adcOne).map fun p => p.1.readings (0 + 1 * 8)) = some 777 := by
  constructor
  · decide
  · decide

/-- C6 (amended): for every channel `i < 8` and analog input `j < 4`,
`Keys.read` stores that input's reading at `addr = i + 8*j` (not
`i + 4*j`) when that address is masked, and leaves the reading of an
unmasked address at its previous value. -/
theorem claim_C6_amended (k : Keys) (adc : Nat → Nat → Nat) (i j : Nat) (k' : Keys)
    (ret : Bool) (hi : i < 8) (hj : j < 4) (hr : k.read adc = some (k', ret)) :
    ((k.mask >>> (i + j * 8)) &&& 1 = 1 → k'.readings (i + j * 8) = adc i j) ∧
    ((k.mask >>> (i + j * 8)) &&& 1 ≠ 1 →
      k'.readings (i + j * 8) = k.readings (i + j * 8)) := by
  obtain ⟨-, -, -, -, -, -, -, -, -, -, HB⟩ := read_char k adc k' ret hr
  have ha : i + j * 8 < 32 := by omega
  have H := HB (i + j * 8) ha
  have hi' : (i + j * 8) % 8 = i := by omega
  have hj' : (i + j * 8) / 8 = j := by omega
  rw [hi', hj'] at H
  constructor
  · intro hm
    rw [if_pos hm] at H
    exact H.2.1
  · intro hm
    rw [if_neg hm] at H
    exact H.1

theorem claim_C6_witness :
    (0 : Nat) < 8 ∧ (1 : Nat) < 4 ∧
    (((k0.mask >>> (0 + 1 * 8)) &&& 1 = 1 → readOne.1.readings (0 + 1 * 8) = adcOne 0 1) ∧
    ((k0.mask >>> (0 + 1 * 8)) &&& 1 ≠ 1 →
      readOne.1.readings (0 + 1 * 8) = k0.readings (0 + 1 * 8))) :=
  ⟨by decide, by decide,
    claim_C6_amended k0 adcOne 0 1 readOne.1 readOne.2 (by decide) (by decide) rfl⟩

/-- C7 counterexample: scanning `adcMid` from the initial state changes the
normalized output of masked address 0 from 0 to 42 (as witnessed by
`outputChangedB`), yet `Keys.read` returns `false`, because the pressed
bitmap did not change — refuting the claim that the return value is true iff
some masked normalized output changed. -/
theorem claim_C7_counterexample :
    ((k0.read adcMid).map fun p => (outputChangedB p.1, p.2)) = some (true, false) := by
  decide

/-- C7 (amended): `Keys.read` returns `true` iff the pressed bitmap changed
during the scan (the normalized outputs are compared only into a discarded
local); `prev_pressed` holds the pressed bitmap from before the scan. -/
theorem claim_C7_amended (k : Keys) (adc : Nat → Nat → Nat) (k' : Keys) (ret : Bool)
    (hr : k.read adc = some (k', ret)) :
    (ret = true ↔ k'.pressed ≠ k.pressed) ∧ k'.prev_pressed = k.pressed := by
  obtain ⟨h1, h2, -⟩ := read_char k adc k' ret hr
  refine ⟨?_, h2⟩
  rw [h1]
  simp

theorem claim_C7_witness :
    ((readFull.2 = true ↔ readFull.1.pressed ≠ k0.pressed) ∧
      readFull.1.prev_pressed = k0.pressed) :=
  claim_C7_amended k0 adcFull readFull.1 readFull.2 rfl

/-- C4: every chord packet built by `Keys.write` is exactly 6 bytes; byte 0
has its most-significant bit set and bytes 1–5 have it clear; data bit
`6 - i` of byte `c` is set iff the stroke bitmap contains the sensor address
at row `c`, position `i` of the protocol table; and (for strokes not
containing the sentinel address 28, which holds in every reachable state)
sentinel table entries never set a bit. -/
theorem claim_C4 (stroke : Nat) (h28 : stroke.testBit 28 = false) :
    (writePacket stroke).length = 6 ∧
    ((writePacket stroke).getD 0 0).testBit 7 = true ∧
    (∀ c, 1 ≤ c → c < 6 → ((writePacket stroke).getD c 0).testBit 7 = false) ∧
    (∀ c, c < 6 → ∀ i, i < 7 →
      ((writePacket stroke).getD c 0).testBit (6 - i) = stroke.testBit (protoEntry c i)) ∧
    (∀ c, c < 6 → ∀ i, i < 7 → protoEntry c i = 28 →
      ((writePacket stroke).getD c 0).testBit (6 - i) = false) := by
  refine ⟨writePacket_length stroke, ?_, ?_, ?_, ?_⟩
  · rw [writePacket_getD stroke 0 (by norm_num), packetByte_msb stroke 0 (by norm_num)]
    rfl
  · intro c h1 h6
    rw [writePacket_getD stroke c h6, packetByte_msb stroke c h6]
    exact decide_eq_false (by omega)
  · intro c hc i hi
    rw [writePacket_getD stroke c hc, packetByte_testBit stroke c (6 - i) hc (by omega)]
    rw [show 6 - (6 - i) = i by omega]
  · intro c hc i hi h28e
    rw [writePacket_getD stroke c hc, packetByte_testBit stroke c (6 - i) hc (by omega)]
    rw [show 6 - (6 - i) = i by omega, h28e, h28]

theorem claim_C4_witness :
    (257 : Nat).testBit 28 = false ∧
    ((writePacket 257).length = 6 ∧
    ((writePacket 257).getD 0 0).testBit 7 = true ∧
    (∀ c, 1 ≤ c → c < 6 → ((writePacket 257).getD c 0).testBit 7 = false) ∧
    (∀ c, c < 6 → ∀ i, i < 7 →
      ((writePacket 257).getD c 0).testBit (6 - i) = (257 : Nat).testBit (protoEntry c i)) ∧
    (∀ c, c < 6 → ∀ i, i < 7 → protoEntry c i = 28 →
      ((writePacket 257).getD c 0).testBit (6 - i) = false)) :=
  ⟨by decide, claim_C4 257 (by decide)⟩

/-- C9 counterexample: for the stroke with exactly addresses {0, 8} set, the
data bit for address 0 assigned by the layout table is bit 6 of byte 1
(table row 1, position 0, value `0x40`); byte 0 of the encoded packet is
plain `0x80`, not `0x80` OR'd with that data bit. -/
theorem claim_C9_counterexample :
    protoEntry 1 0 = 0 ∧
    (writePacket (2 ^ 0 + 2 ^ 8)).getD 0 0 ≠ 0x80 ||| (1 <<< 6) := by
  constructor
  · decide
  · decide

/-- C9 (amended): encoding the stroke bitmap {0, 8} produces the packet
`[0x80, 0x40, 0x20, 0, 0, 0]`: byte 0 is the plain framing byte `0x80`,
byte 1 (which covers address 0) has its corresponding bit `0x40` set, byte 2
(which covers address 8) has its corresponding bit `0x20` set, and all other
data bits are 0. -/
theorem claim_C9_amended :
    writePacket (2 ^ 0 + 2 ^ 8) = [0x80, 0x40, 0x20, 0, 0, 0] := by decide

/-- Degenerate calibration: `max` equal to the default `zero` everywhere. -/
def kDeg : Keys := { k0 with max := fun _ => 32913 }

/-- C5 (code bug): the normalization of keys.py line 161 has no guard for
`abs(max[addr]-zero[addr]) == 0`; with a calibration where `max = zero`, the
very first masked address divides by zero (Python raises
`ZeroDivisionError`, modelled as `none`), so the scan crashes instead of
failing closed to a safe fixed value. -/
theorem claim_C5_crash : kDeg.read (fun _ _ => 40000) = none := rfl

/-- C8 (code bug): the calibration validation of keys.py line 220 compares
`abs(vPressed[i] - zero[i])` strictly below 0, which no natural number
satisfies (the comment says to replace the 0), so for every calibration
data whatsoever the error list is empty and the calibration is committed;
in particular the zero-deflection calibration where every phase value is
100 is accepted, committing `max 0 = zero 0` (which then crashes
normalization, see C5). -/
theorem claim_C8_deadcheck (k : Keys) (vMin0 vMax0 vPressed : Nat → Nat) :
    (calibCommit k vMin0 vMax0 vPressed).2.1 = [] ∧
    (calibCommit k vMin0 vMax0 vPressed).2.2 = true ∧
    (calibCommit k0 (fun _ => 100) (fun _ => 100) (fun _ => 100)).2.1 = [] ∧
    (calibCommit k0 (fun _ => 100) (fun _ => 100) (fun _ => 100)).2.2 = true ∧
    (calibCommit k0 (fun _ => 100) (fun _ => 100) (fun _ => 100)).1.max 0 =
      (calibCommit k0 (fun _ => 100) (fun _ => 100) (fun _ => 100)).1.zero 0 := by
  have hfold : ∀ (l : List Nat) (e : List String),
      l.foldl (fun e i =>
        if k.mask &&& (1 <<< i) ≠ 0 ∧
            ((vPressed i : Int) -
              ((if vPressed i < vMin0 i then vMin0 i else vMax0 i : Nat) : Int)).natAbs < 0 then
          e ++ [keyNames.getD i ""]
        else e) e = e := by
    intro l
    induction l with
    | nil => intro e; rfl
    | cons x xs ihl =>
        intro e
        rw [List.foldl_cons, if_neg]
        · exact ihl e
        · rintro ⟨-, hneg⟩
          exact Nat.not_lt_zero _ hneg
  refine ⟨?_, ?_, by decide, by decide, by decide⟩ <;>
    · simp only [calibCommit, hfold]
      rfl

/-! ### The main loop: stroke accumulation and emission -/

/-- Case analysis of one main-loop iteration, following keys.py lines
256-263: after a successful scan, either the pressed bitmap changed to
empty (emit the stroke packet and reset the stroke), or it changed to a
non-empty set (union it into the stroke), or it did not change. -/
theorem loopStep_cases (k : Keys) (adc : Nat → Nat → Nat) (k1 : Keys)
    (e : Option (List Nat)) (h : loopStep k adc = some (k1, e)) :
    ∃ kr ret, k.read adc = some (kr, ret) ∧
      ((ret = true ∧ kr.pressed = 0 ∧ k1 = { kr with stroke := 0 } ∧
          e = some (writePacket kr.stroke)) ∨
       (ret = true ∧ kr.pressed ≠ 0 ∧
          k1 = { kr with stroke := kr.stroke ||| kr.pressed } ∧ e = none) ∨
       (ret = false ∧ k1 = kr ∧ e = none)) := by
  unfold loopStep at h
  cases hrd : k.read adc with
  | none =>
      rw [hrd] at h
      exact Option.noConfusion h
  | some p =>
      obtain ⟨kr, ret⟩ := p
      simp only [hrd] at h
      refine ⟨kr, ret, rfl, ?_⟩
      cases ret with
      | false =>
          have h2 := Option.some.inj h
          exact Or.inr (Or.inr ⟨rfl, (congrArg Prod.fst h2).symm, (congrArg Prod.snd h2).symm⟩)
      | true =>
          by_cases hp : kr.pressed = 0
          · rw [if_pos (by trivial), if_pos hp] at h
            have h2 := Option.some.inj h
            exact Or.inl ⟨rfl, hp, (congrArg Prod.fst h2).symm, (congrArg Prod.snd h2).symm⟩
          · rw [if_pos (by trivial), if_neg hp] at h
            have h2 := Option.some.inj h
            exact Or.inr (Or.inl ⟨rfl, hp, (congrArg Prod.fst h2).symm,
              (congrArg Prod.snd h2).symm⟩)

theorem loopTrace_eq_nil {k : Keys} {inputs : List (Nat → Nat → Nat)}
    (h : loopTrace k inputs = some []) : inputs = [] := by
  cases inputs with
  | nil => rfl
  | cons adc rest =>
      simp only [loopTrace] at h
      cases hls : loopStep k adc with
      | none =>
          simp only [hls] at h
          exact Option.noConfusion h
      | some p =>
          obtain ⟨k1, e⟩ := p
          simp only [hls] at h
          cases hlt : loopTrace k1 rest with
          | none =>
              simp only [hlt] at h
              exact Option.noConfusion h
          | some ps =>
              simp only [hlt] at h
              exact absurd (Option.some.inj h) (by simp)

/-- Within one chord (pressed bitmaps all non-empty until the final
all-released scan), the run emits exactly one packet, encoding the union of
the stroke so far with all pressed bitmaps observed, and both stroke and
pressed end empty. -/
theorem loopRun_chord :
    ∀ (inputs : List (Nat → Nat → Nat)) (k k' : Keys) (emits : List (List Nat))
      (qs : List Nat),
      loopRun k inputs = some (k', emits) →
      loopTrace k inputs = some (qs ++ [0]) →
      (∀ q ∈ qs, q ≠ 0) →
      k.pressed ≠ 0 →
      k.stroke ||| k.pressed = k.stroke →
      emits = [writePacket (qs.foldl (· ||| ·) k.stroke)] ∧
        k'.stroke = 0 ∧ k'.pressed = 0 := by
  intro inputs
  induction inputs with
  | nil =>
      intro k k' emits qs hrun htr hnz hp hinv
      have h := Option.some.inj htr
      exact absurd h.symm (by simp)
  | cons adc rest ih =>
      intro k k' emits qs hrun htr hnz hp hinv
      simp only [loopRun] at hrun
      simp only [loopTrace] at htr
      cases hls : loopStep k adc with
      | none =>
          simp only [hls] at hrun
          exact Option.noConfusion hrun
      | some pe =>
          obtain ⟨k1, e⟩ := pe
          simp only [hls] at hrun htr
          cases hlr : loopRun k1 rest with
          | none =>
              simp only [hlr] at hrun
              exact Option.noConfusion hrun
          | some p2 =>
              obtain ⟨k2, es⟩ := p2
              simp only [hlr] at hrun
              cases hlt : loopTrace k1 rest with
              | none =>
                  simp only [hlt] at htr
                  exact Option.noConfusion htr
              | some ps =>
                  simp only [hlt] at htr
                  have hrun2 := Option.some.inj hrun
                  have hk' : k' = k2 := (congrArg Prod.fst hrun2).symm
                  have hem : emits = e.toList ++ es := (congrArg Prod.snd hrun2).symm
                  have htr2 : k1.pressed :: ps = qs ++ [0] := Option.some.inj htr
                  obtain ⟨kr, ret, hrd, hcase⟩ := loopStep_cases k adc k1 e hls
                  obtain ⟨hret, -, -, hstk, -⟩ := read_char k adc kr ret hrd
                  cases qs with
                  | nil =>
                      have htr2' : k1.pressed :: ps = 0 :: ([] : List Nat) := htr2
                      injection htr2' with hA hB
                      rcases hcase with ⟨-, hkr0, hk1, he⟩ | ⟨-, hkrn, hk1, -⟩ | ⟨hret0, hk1, -⟩
                      · subst hk1
                        subst hB
                        have hrest : rest = [] := loopTrace_eq_nil hlt
                        subst hrest
                        have hlr2 := Option.some.inj hlr
                        have hk2 : k2 = { kr with stroke := 0 } :=
                          (congrArg Prod.fst hlr2).symm
                        have hes : es = [] := (congrArg Prod.snd hlr2).symm
                        subst hk'
                        refine ⟨?_, ?_, ?_⟩
                        · rw [hem, he, hes, hstk]
                          rfl
                        · rw [hk2]
                        · rw [hk2]
                          exact hkr0
                      · subst hk1
                        exact absurd hA hkrn
                      · subst hk1
                        rw [hret0] at hret
                        have hkp : k1.pressed = k.pressed := by
                          by_contra hne
                          simp [hne] at hret
                        exact absurd (hkp.symm.trans hA) hp
                  | cons q qs' =>
                      have htr2' : k1.pressed :: ps = q :: (qs' ++ [0]) := htr2
                      injection htr2' with hA hB
                      have hq0 : q ≠ 0 := hnz q (List.mem_cons_self q qs')
                      have hnz' : ∀ r ∈ qs', r ≠ 0 := fun r hr =>
                        hnz r (List.mem_cons_of_mem q hr)
                      have hlt' : loopTrace k1 rest = some (qs' ++ [0]) := by
                        rw [hlt, hB]
                      rcases hcase with ⟨-, hkr0, hk1, -⟩ | ⟨-, hkrn, hk1, he⟩ | ⟨hret0, hk1, he⟩
                      · subst hk1
                        exact absurd (hA.symm.trans hkr0) hq0
                      · have hk1p : k1.pressed = kr.pressed := by rw [hk1]
                        have hk1s : k1.stroke = kr.stroke ||| kr.pressed := by rw [hk1]
                        have hkrq : kr.pressed = q := hk1p.symm.trans hA
                        have hp1 : k1.pressed ≠ 0 := by
                          rw [hA]
                          exact hq0
                        have hinv1 : k1.stroke ||| k1.pressed = k1.stroke := by
                          rw [hk1s, hk1p, Nat.or_assoc, Nat.or_self]
                        obtain ⟨hes, hk2s, hk2p⟩ :=
                          ih k1 k2 es qs' hlr hlt' hnz' hp1 hinv1
                        subst hk'
                        refine ⟨?_, hk2s, hk2p⟩
                        rw [hem, he, hes, hk1s, hstk, hkrq, List.foldl_cons]
                        rfl
                      · subst hk1
                        rw [hret0] at hret
                        have hkp : k1.pressed = k.pressed := by
                          by_contra hne
                          simp [hne] at hret
                        have hqp : q = k.pressed := hA.symm.trans hkp
                        have hp1 : k1.pressed ≠ 0 := by
                          rw [hA]
                          exact hq0
                        have hinv1 : k1.stroke ||| k1.pressed = k1.stroke := by
                          rw [hstk, hkp]
                          exact hinv
                        obtain ⟨hes, hk2s, hk2p⟩ :=
                          ih k1 k2 es qs' hlr hlt' hnz' hp1 hinv1
                        subst hk'
                        refine ⟨?_, hk2s, hk2p⟩
                        rw [hem, he, hes, hstk, List.foldl_cons, hqp, hinv]
                        rfl

/-- C3: in the main loop, starting from an all-released state with empty
stroke, a run whose observed pressed bitmaps are non-empty until a final
all-released scan emits exactly one packet — the `Keys.write` encoding of
the union of all pressed bitmaps observed between the two all-released
states — and the stroke bitmap is reset to 0 immediately after that single
emission. -/
theorem claim_C3 (k : Keys) (inputs : List (Nat → Nat → Nat)) (k' : Keys)
    (emits : List (List Nat)) (qs : List Nat)
    (hp0 : k.pressed = 0) (hs0 : k.stroke = 0)
    (hrun : loopRun k inputs = some (k', emits))
    (htr : loopTrace k inputs = some (qs ++ [0]))
    (hnz : ∀ q ∈ qs, q ≠ 0) (hne : qs ≠ []) :
    emits = [writePacket (qs.foldl (· ||| ·) 0)] ∧ k'.stroke = 0 ∧ k'.pressed = 0 := by
  cases qs with
  | nil => exact absurd rfl hne
  | cons q qs' =>
      have hq0 : q ≠ 0 := hnz q (List.mem_cons_self q qs')
      cases inputs with
      | nil =>
          have h := Option.some.inj htr
          exact absurd h.symm (by simp)
      | cons adc rest =>
          simp only [loopRun] at hrun
          simp only [loopTrace] at htr
          cases hls : loopStep k adc with
          | none =>
              simp only [hls] at hrun
              exact Option.noConfusion hrun
          | some pe =>
              obtain ⟨k1, e⟩ := pe
              simp only [hls] at hrun htr
              cases hlr : loopRun k1 rest with
              | none =>
                  simp only [hlr] at hrun
                  exact Option.noConfusion hrun
              | some p2 =>
                  obtain ⟨k2, es⟩ := p2
                  simp only [hlr] at hrun
                  cases hlt : loopTrace k1 rest with
                  | none =>
                      simp only [hlt] at htr
                      exact Option.noConfusion htr
                  | some ps =>
                      simp only [hlt] at htr
                      have hrun2 := Option.some.inj hrun
                      have hk' : k' = k2 := (congrArg Prod.fst hrun2).symm
                      have hem : emits = e.toList ++ es := (congrArg Prod.snd hrun2).symm
                      have htr2' : k1.pressed :: ps = q :: (qs' ++ [0]) := Option.some.inj htr
                      injection htr2' with hA hB
                      obtain ⟨kr, ret, hrd, hcase⟩ := loopStep_cases k adc k1 e hls
                      obtain ⟨hret, -, -, hstk, -⟩ := read_char k adc kr ret hrd
                      have hlt' : loopTrace k1 rest = some (qs' ++ [0]) := by rw [hlt, hB]
                      have hnz' : ∀ r ∈ qs', r ≠ 0 := fun r hr =>
                        hnz r (List.mem_cons_of_mem q hr)
                      rcases hcase with ⟨-, hkr0, hk1, -⟩ | ⟨-, hkrn, hk1, he⟩ | ⟨hret0, hk1, he⟩
                      · subst hk1
                        exact absurd (hA.symm.trans hkr0) hq0
                      · have hk1p : k1.pressed = kr.pressed := by rw [hk1]
                        have hk1s : k1.stroke = kr.stroke ||| kr.pressed := by rw [hk1]
                        have hkrq : kr.pressed = q := hk1p.symm.trans hA
                        have hp1 : k1.pressed ≠ 0 := by
                          rw [hA]
                          exact hq0
                        have hinv1 : k1.stroke ||| k1.pressed = k1.stroke := by
                          rw [hk1s, hk1p, Nat.or_assoc, Nat.or_self]
                        obtain ⟨hes, hk2s, hk2p⟩ :=
                          loopRun_chord rest k1 k2 es qs' hlr hlt' hnz' hp1 hinv1
                        subst hk'
                        refine ⟨?_, hk2s, hk2p⟩
                        rw [hem, he, hes, hk1s, hstk, hkrq, hs0, List.foldl_cons]
                        rfl
                      · subst hk1
                        rw [hret0] at hret
                        have hkp : k1.pressed = k.pressed := by
                          by_contra hne2
                          simp [hne2] at hret
                        exact absurd (hA.symm.trans (hkp.trans hp0)) hq0

/-- Two-iteration run: all masked keys pressed, then all released. -/
def runFull : Keys × List (List Nat) := (loopRun k0 [adcFull, adcIdle]).get (by decide)

theorem claim_C3_witness :
    k0.pressed = 0 ∧ k0.stroke = 0 ∧ (∀ q ∈ [maskValue], q ≠ 0) ∧
    ([maskValue] : List Nat) ≠ [] ∧
    (runFull.2 = [writePacket ([maskValue].foldl (· ||| ·) 0)] ∧
      runFull.1.stroke = 0 ∧ runFull.1.pressed = 0) :=
  ⟨rfl, rfl, by decide, by decide,
    claim_C3 k0 [adcFull, adcIdle] runFull.1 runFull.2 [maskValue] rfl rfl rfl rfl
      (by decide) (by decide)⟩

/-! ### The reachable-state invariant -/

theorem read_preserves_inv (k kr : Keys) (adc : Nat → Nat → Nat) (ret : Bool)
    (hrd : k.read adc = some (kr, ret)) (hm : k.mask = maskValue)
    (hpr : ∀ a, k.pressed.testBit a = true → maskValue.testBit a = true)
    (hst : ∀ a, k.stroke.testBit a = true → maskValue.testBit a = true) :
    kr.mask = maskValue ∧
    (∀ a, kr.pressed.testBit a = true → maskValue.testBit a = true) ∧
    (∀ a, kr.stroke.testBit a = true → maskValue.testBit a = true) := by
  obtain ⟨-, -, -, hstk, -, -, -, -, hmask, Hge, HB⟩ := read_char k adc kr ret hrd
  refine ⟨hmask.trans hm, ?_, ?_⟩
  · intro a ha
    by_cases h32 : a < 32
    · have H := HB a h32
      by_cases hmb : (k.mask >>> a) &&& 1 = 1
      · rw [← hm]
        exact testBit_iff_one.mpr hmb
      · rw [if_neg hmb] at H
        exact hpr a (H.2.2.symm.trans ha)
    · have H := Hge a (by omega)
      exact hpr a (H.2.2.symm.trans ha)
  · intro a ha
    have h2 : kr.stroke.testBit a = k.stroke.testBit a := by rw [hstk]
    exact hst a (h2.symm.trans ha)

theorem calibCommit_fields (k : Keys) (vMin0 vMax0 vPressed : Nat → Nat) :
    (calibCommit k vMin0 vMax0 vPressed).1.pressed = k.pressed ∧
    (calibCommit k vMin0 vMax0 vPressed).1.stroke = k.stroke ∧
    (calibCommit k vMin0 vMax0 vPressed).1.mask = k.mask := by
  unfold calibCommit
  dsimp only
  split
  · exact ⟨rfl, rfl, rfl⟩
  · exact ⟨rfl, rfl, rfl⟩

/-- In every reachable state the mask is the static sensor mask and the
pressed and stroke bitmaps are subsets of it. -/
theorem reachable_inv (k : Keys) (hk : Reachable k) :
    k.mask = maskValue ∧
    (∀ a, k.pressed.testBit a = true → maskValue.testBit a = true) ∧
    (∀ a, k.stroke.testBit a = true → maskValue.testBit a = true) := by
  induction hk with
  | boot cal =>
      refine ⟨rfl, ?_, ?_⟩ <;>
        · intro a ha
          have h0 : (0 : Nat).testBit a = true := ha
          rw [Nat.zero_testBit] at h0
          exact absurd h0 (by simp)
  | scan k adc k' ret hk hrd ihk =>
      obtain ⟨hm, hpr, hst⟩ := ihk
      exact read_preserves_inv k k' adc ret hrd hm hpr hst
  | main k adc k' e hk hls ihk =>
      obtain ⟨hm, hpr, hst⟩ := ihk
      obtain ⟨kr, ret, hrd, hcase⟩ := loopStep_cases k adc k' e hls
      obtain ⟨hmr, hprr, hstr⟩ := read_preserves_inv k kr adc ret hrd hm hpr hst
      rcases hcase with ⟨-, -, hk1, -⟩ | ⟨-, -, hk1, -⟩ | ⟨-, hk1, -⟩
      · subst hk1
        refine ⟨hmr, hprr, ?_⟩
        intro a ha
        have h0 : (0 : Nat).testBit a = true := ha
        rw [Nat.zero_testBit] at h0
        exact absurd h0 (by simp)
      · subst hk1
        refine ⟨hmr, hprr, ?_⟩
        intro a ha
        have ha' : (kr.stroke ||| kr.pressed).testBit a = true := ha
        rw [Nat.testBit_or, Bool.or_eq_true] at ha'
        rcases ha' with h | h
        · exact hstr a h
        · exact hprr a h
      · subst hk1
        exact ⟨hmr, hprr, hstr⟩
  | cal k vMin0 vMax0 vPressed hk ihk =>
      obtain ⟨hm, hpr, hst⟩ := ihk
      obtain ⟨hfp, hfs, hfm⟩ := calibCommit_fields k vMin0 vMax0 vPressed
      refine ⟨hfm.trans hm, ?_, ?_⟩
      · intro a ha
        have h2 : (calibCommit k vMin0 vMax0 vPressed).1.pressed.testBit a =
            k.pressed.testBit a := by rw [hfp]
        exact hpr a (h2.symm.trans ha)
      · intro a ha
        have h2 : (calibCommit k vMin0 vMax0 vPressed).1.stroke.testBit a =
            k.stroke.testBit a := by rw [hfs]
        exact hst a (h2.symm.trans ha)

/-- C10: invariant of every reachable state: the pressed and stroke bitmaps
are subsets of the static sensor mask (which stays `maskValue`); and
consequently, in every packet emitted by the main loop, data bits whose
layout-table entry is an unmasked address (including the sentinel 28) are
0. -/
theorem claim_C10 (k : Keys) (hk : Reachable k) :
    (k.mask = maskValue ∧
     (∀ a, k.pressed.testBit a = true → maskValue.testBit a = true) ∧
     (∀ a, k.stroke.testBit a = true → maskValue.testBit a = true)) ∧
    (∀ adc k' pkt, loopStep k adc = some (k', some pkt) →
      ∀ c, c < 6 → ∀ i, i < 7 → maskValue.testBit (protoEntry c i) = false →
        (pkt.getD c 0).testBit (6 - i) = false) := by
  have hinv := reachable_inv k hk
  refine ⟨hinv, ?_⟩
  intro adc k' pkt hstep c hc i hi hum
  obtain ⟨kr, ret, hrd, hcase⟩ := loopStep_cases k adc k' (some pkt) hstep
  rcases hcase with ⟨-, -, -, he⟩ | ⟨-, -, -, he⟩ | ⟨-, -, he⟩
  · have hpkt : pkt = writePacket kr.stroke := Option.some.inj he
    obtain ⟨-, -, -, hstk, -⟩ := read_char k adc kr ret hrd
    rw [hpkt, writePacket_getD _ c hc, packetByte_testBit _ c (6 - i) hc (by omega),
      show 6 - (6 - i) = i by omega, hstk]
    cases hsb : k.stroke.testBit (protoEntry c i) with
    | false => rfl
    | true => exact absurd (hinv.2.2 _ hsb) (by simp [hum])
  · exact Option.noConfusion he
  · exact Option.noConfusion he

theorem claim_C10_witness :
    ((k0.mask = maskValue ∧
     (∀ a, k0.pressed.testBit a = true → maskValue.testBit a = true) ∧
     (∀ a, k0.stroke.testBit a = true → maskValue.testBit a = true)) ∧
    (∀ adc k' pkt, loopStep k0 adc = some (k', some pkt) →
      ∀ c, c < 6 → ∀ i, i < 7 → maskValue.testBit (protoEntry c i) = false →
        (pkt.getD c 0).testBit (6 - i) = false)) :=
  claim_C10 k0 (Reachable.boot none)

end Steno
